import Mathlib

set_option maxHeartbeats 1000000

/-!
Shallow embedding of the `purify` struct-validation library
(`purify.go` plus the built-in validators file), together with proofs of
the specification's claims about it.

Strings are Lean `String`s; Go byte-length `len(s)` is modelled by
`String.utf8ByteSize`; machine integers are `Int` (no claim here depends
on overflow); the reflection-based field introspection is modelled by the
`GoField` record carrying the declared name, the `json` and `purify` tag
values and the `fmt.Sprintf("%v", ...)`-rendered value, exactly the data
`ValidateStruct` extracts per field.  The process-wide mutable map
`validators` is modelled as an explicit `Registry` value threaded through
the functions.
-/

namespace Purify

/-- Embeds `type ValidatorFunc func(fieldValue string, param string) string`. -/
abbrev ValidatorFunc := String → String → String

/-- Embeds the process-wide map `var validators = make(map[string]ValidatorFunc)`,
as an explicit lookup function; `validators[name]` with comma-ok is `reg name`. -/
abbrev Registry := String → Option ValidatorFunc

/-- Embeds the freshly made empty map. -/
def emptyRegistry : Registry := fun _ => none

/-- Embeds `func RegisterValidator(name string, fn ValidatorFunc) { validators[name] = fn }`:
map assignment, overwriting any previous entry under `name`. -/
def RegisterValidator (reg : Registry) (name : String) (fn : ValidatorFunc) : Registry :=
  fun n => if n = name then some fn else reg n

/-- Embeds the per-field data `ValidateStruct` reads via reflection:
`fieldType.Name`, `fieldType.Tag.Get("json")`, `fieldType.Tag.Get("purify")`
and `fmt.Sprintf("%v", field.Interface())`. -/
structure GoField where
  name : String
  jsonTag : String
  purifyTag : String
  value : String
deriving DecidableEq

/-- Embeds the dynamic shape of the `interface{}` argument as far as
`ValidateStruct` inspects it with `reflect`: a struct (with its introspected
fields), a pointer to a value, or anything else. -/
inductive GoValue where
  | structV (fields : List GoField)
  | ptr (inner : GoValue)
  | prim
deriving DecidableEq

/-- Embeds `type ValidateError struct { Errors map[string][]string; Message string }`.
The map is modelled as an association list in key-insertion order; Go map
iteration order is not observable through any claim. -/
structure ValidateError where
  Errors : List (String × List String)
  Message : String
deriving DecidableEq

abbrev ErrMap := List (String × List String)

/-- Embeds `if v.Kind() == reflect.Ptr { v = v.Elem() }`: one level of
pointer dereference, everything else unchanged. -/
def deref : GoValue → GoValue
  | GoValue.ptr v => v
  | v => v

/-- Embeds `strings.Index(rule, "(")` restricted to a single character:
index of the first occurrence, or `none`. -/
def strIndex (c : Char) : List Char → Option Nat
  | [] => none
  | x :: xs => if x = c then some 0 else (strIndex c xs).map (· + 1)

/-- Embeds `strings.TrimRight(s, ")")`: strip every trailing `)`. -/
def trimRightParens (l : List Char) : List Char :=
  (l.reverse.dropWhile (· == ')')).reverse

/-- Embeds `func parseRule(rule string) (string, string)`:
find the first `(`; if absent the whole segment is the name with empty
parameter, otherwise the name is everything before it and the parameter is
everything after it with trailing `)` stripped. -/
def parseRule (rule : String) : String × String :=
  match strIndex '(' rule.toList with
  | none => (rule, "")
  | some idx =>
      (String.mk (rule.toList.take idx),
       String.mk (trimRightParens (rule.toList.drop (idx + 1))))

/-- Embeds `strings.Split(s, "|")` (single-character separator): splitting
the empty string yields one empty segment, as in Go. -/
def splitPipe : List Char → List (List Char)
  | [] => [[]]
  | c :: rest =>
      if c = '|' then [] :: splitPipe rest
      else
        match splitPipe rest with
        | [] => [[c]]
        | s :: ss => (c :: s) :: ss

/-- Embeds `rules := strings.Split(gformTag, "|")`. -/
def splitRules (s : String) : List String :=
  (splitPipe s.toList).map String.mk

/-- Embeds `validationErrors[fieldName] = append(validationErrors[fieldName], errMsg)`:
append to the existing entry, or create a fresh one-element entry. -/
def appendErr : ErrMap → String → String → ErrMap
  | [], k, m => [(k, [m])]
  | (k', v) :: rest, k, m =>
      if k' = k then (k', v ++ [m]) :: rest
      else (k', v) :: appendErr rest k m

/-- Embeds the json-tag fallback
`jsonTag := fieldType.Tag.Get("json"); if jsonTag == "" || jsonTag == "-" { jsonTag = fieldType.Name }`. -/
def displayName (f : GoField) : String :=
  if f.jsonTag = "" ∨ f.jsonTag = "-" then f.name else f.jsonTag

/-- Embeds the inner `for _, rule := range rules` loop of `ValidateStruct`:
parse each rule, look it up, run the validator, and on a non-empty message
append it under `fieldName` and record the first such message. -/
def runRules (reg : Registry) (fieldName value : String) :
    List String → ErrMap → String → ErrMap × String
  | [], errs, first => (errs, first)
  | rule :: rest, errs, first =>
      match reg (parseRule rule).1 with
      | some validator =>
          if validator value (parseRule rule).2 ≠ "" then
            runRules reg fieldName value rest
              (appendErr errs fieldName (validator value (parseRule rule).2))
              (if first = "" then validator value (parseRule rule).2 else first)
          else
            runRules reg fieldName value rest errs first
      | none => runRules reg fieldName value rest errs first

/-- Embeds the outer `for i := 0; i < v.NumField(); i++` loop of
`ValidateStruct`: skip fields whose `purify` tag is empty, otherwise split
the tag and run the rules against the rendered value. -/
def runFields (reg : Registry) : List GoField → ErrMap → String → ErrMap × String
  | [], errs, first => (errs, first)
  | f :: rest, errs, first =>
      if f.purifyTag = "" then runFields reg rest errs first
      else
        runFields reg rest
          (runRules reg (displayName f) f.value (splitRules f.purifyTag) errs first).1
          (runRules reg (displayName f) f.value (splitRules f.purifyTag) errs first).2

/-- Embeds `func ValidateStruct(s interface{}) *ValidateError`: dereference
one pointer level, reject non-structs with the synthetic report, run all
fields, and return `nil` when no error was accumulated. -/
def ValidateStruct (reg : Registry) (s : GoValue) : Option ValidateError :=
  match deref s with
  | GoValue.structV fields =>
      if (runFields reg fields [] "").1 = [] then none
      else some ⟨(runFields reg fields [] "").1, (runFields reg fields [] "").2⟩
  | _ => some ⟨[("", ["expected a struct"])], "expected a struct"⟩

/-- Embeds Go `len` on strings (byte length of the UTF-8 encoding). -/
def goLen (s : String) : Nat := s.utf8ByteSize

/-- Models syntactic success of `strconv.Atoi`: an optional sign followed by
at least one decimal digit (overflow, which returns a clamped value rather
than zero, is irrelevant to every claim and not modelled). -/
def goAtoiParse (s : String) : Option Int :=
  match s.toList with
  | [] => none
  | '+' :: ds =>
      if !ds.isEmpty && ds.all Char.isDigit then
        some (ds.foldl (fun n c => n * 10 + (c.toNat - '0'.toNat)) 0 : Nat)
      else none
  | '-' :: ds =>
      if !ds.isEmpty && ds.all Char.isDigit then
        some (-((ds.foldl (fun n c => n * 10 + (c.toNat - '0'.toNat)) 0 : Nat) : Int))
      else none
  | ds =>
      if ds.all Char.isDigit then
        some (ds.foldl (fun n c => n * 10 + (c.toNat - '0'.toNat)) 0 : Nat)
      else none

/-- Embeds `value, _ := strconv.Atoi(param)`: the discarded-error idiom
yields `0` when the parameter does not parse. -/
def goAtoi (s : String) : Int := (goAtoiParse s).getD 0

/-- Embeds the built-in `Min` validator:
`maxLength, _ := strconv.Atoi(param); if len(fieldValue) < maxLength { return fmt.Sprintf("min length is %s", param) }`. -/
def Min : ValidatorFunc := fun fieldValue param =>
  if (goLen fieldValue : Int) < goAtoi param then "min length is " ++ param else ""

/-- Embeds the built-in `Max` validator:
`maxLength, _ := strconv.Atoi(param); if len(fieldValue) > maxLength { return fmt.Sprintf("max length is %s", param) }`. -/
def Max : ValidatorFunc := fun fieldValue param =>
  if (goLen fieldValue : Int) > goAtoi param then "max length is " ++ param else ""

/-- Embeds the built-in `Required` validator:
`if fieldValue == "" { return "required" }`. -/
def Required : ValidatorFunc := fun fieldValue _ =>
  if fieldValue = "" then "required" else ""

/-- Embeds the registry state after the library's `init()` registrations that
the claims exercise (`min`, `max`, `required`; the regex-based `email`
validator is peripheral to every claim). -/
def regBuiltins : Registry :=
  RegisterValidator
    (RegisterValidator (RegisterValidator emptyRegistry "min" Min) "max" Max)
    "required" Required

/-! Specification-level descriptions of the accumulation performed by
`ValidateStruct`, used to state the claims independently of the
accumulator-threading loops above. -/

/-- Messages produced by an ordered rule list against one rendered value:
for each rule, in order, the registered validator's message when it is
non-empty; unregistered names and empty messages contribute nothing. -/
def ruleMsgs (reg : Registry) (value : String) : List String → List String
  | [] => []
  | rule :: rest =>
      (match reg (parseRule rule).1 with
       | some validator =>
           if validator value (parseRule rule).2 ≠ ""
           then [validator value (parseRule rule).2] else []
       | none => []) ++ ruleMsgs reg value rest

/-- Messages produced by one field: none when its `purify` tag is empty
(the field is skipped entirely), otherwise the messages of its rule list. -/
def fieldMsgs (reg : Registry) (f : GoField) : List String :=
  if f.purifyTag = "" then [] else ruleMsgs reg f.value (splitRules f.purifyTag)

/-- All messages in field-then-rule order. -/
def allMsgs (reg : Registry) : List GoField → List String
  | [] => []
  | f :: rest => fieldMsgs reg f ++ allMsgs reg rest

/-- Messages destined for error-report key `k`: the concatenation, in field
order, of the messages of the fields whose display name is `k`. -/
def specErrsFor (reg : Registry) (k : String) : List GoField → List String
  | [] => []
  | f :: rest =>
      (if displayName f = k then fieldMsgs reg f else []) ++ specErrsFor reg k rest

/-- Lookup in the error map, with the empty list (Go's `nil` slice) for a
missing key. -/
def errLookup : ErrMap → String → List String
  | [], _ => []
  | (k, v) :: rest, k' => if k = k' then v else errLookup rest k'

/-- One functional description of the `firstErrorMessage` accumulator:
keep `first` if already non-empty, otherwise take the head of the
remaining message list. -/
def updFirst (first : String) (msgs : List String) : String :=
  if first = "" then msgs.headD "" else first

/-- Concrete record used by several witnesses: one field, declared name
`Name`, json tag `name`, rules `required|min(3)`, rendered value `Al`. -/
def wFields : List GoField := [⟨"Name", "name", "required|min(3)", "Al"⟩]

/-- The report `ValidateStruct` produces on `wFields` with the built-in
registry. -/
def wErr : ValidateError := ⟨[("name", ["min length is 3"])], "min length is 3"⟩

/-! Helper lemmas about the accumulator loops. -/

theorem appendErr_ne_nil (errs : ErrMap) (k m : String) : appendErr errs k m ≠ [] := by
  cases errs with
  | nil => simp [appendErr]
  | cons p rest =>
      obtain ⟨k', v⟩ := p
      by_cases h : k' = k <;> simp [appendErr, h]

theorem errLookup_appendErr (errs : ErrMap) (k m k' : String) :
    errLookup (appendErr errs k m) k' =
      if k = k' then errLookup errs k' ++ [m] else errLookup errs k' := by
  induction errs with
  | nil => by_cases h : k = k' <;> simp [appendErr, errLookup, h]
  | cons p rest ih =>
      obtain ⟨k₀, v⟩ := p
      by_cases h0 : k₀ = k
      · subst h0
        by_cases h1 : k₀ = k'
        · subst h1; simp [appendErr, errLookup]
        · simp [appendErr, errLookup, h1]
      · by_cases h1 : k₀ = k'
        · subst h1
          have hk : ¬ k = k₀ := fun hh => h0 hh.symm
          simp [appendErr, errLookup, h0, hk]
        · simp [appendErr, errLookup, h0, h1, ih]

theorem updFirst_nil (first : String) : updFirst first [] = first := by
  by_cases h : first = "" <;> simp [updFirst, h]

theorem updFirst_cons (first msg : String) (hmsg : msg ≠ "") (ms : List String) :
    updFirst (if first = "" then msg else first) ms = updFirst first (msg :: ms) := by
  by_cases h : first = "" <;> simp [updFirst, h, hmsg]

theorem updFirst_append (first : String) (xs ys : List String)
    (hxs : ∀ m ∈ xs, m ≠ "") :
    updFirst (updFirst first xs) ys = updFirst first (xs ++ ys) := by
  by_cases h : first = ""
  · cases xs with
    | nil => simp [updFirst, h]
    | cons x xs' =>
        have hx : x ≠ "" := hxs x (by simp)
        simp [updFirst, h, hx]
  · simp [updFirst, h]

theorem ruleMsgs_ne_empty (reg : Registry) (value : String) :
    ∀ (rules : List String), ∀ m ∈ ruleMsgs reg value rules, m ≠ "" := by
  intro rules
  induction rules with
  | nil => simp [ruleMsgs]
  | cons rule rest ih =>
      intro m hm
      simp only [ruleMsgs, List.mem_append] at hm
      rcases hm with hm | hm
      · cases hreg : reg (parseRule rule).1 with
        | none => rw [hreg] at hm; simp at hm
        | some validator =>
            rw [hreg] at hm
            by_cases hv : validator value (parseRule rule).2 = ""
            · simp [hv] at hm
            · simp only [ne_eq, hv, not_false_eq_true, if_true, List.mem_singleton] at hm
              rw [hm]; exact hv
      · exact ih m hm

theorem runRules_snd (reg : Registry) (fname value : String) :
    ∀ (rules : List String) (errs : ErrMap) (first : String),
      (runRules reg fname value rules errs first).2 =
        updFirst first (ruleMsgs reg value rules) := by
  intro rules
  induction rules with
  | nil => intro errs first; simp [runRules, ruleMsgs, updFirst_nil]
  | cons rule rest ih =>
      intro errs first
      cases hreg : reg (parseRule rule).1 with
      | none => simp [runRules, ruleMsgs, hreg, ih]
      | some validator =>
          by_cases hv : validator value (parseRule rule).2 = ""
          · simp [runRules, ruleMsgs, hreg, hv, ih]
          · have h1 : runRules reg fname value (rule :: rest) errs first =
                runRules reg fname value rest
                  (appendErr errs fname (validator value (parseRule rule).2))
                  (if first = "" then validator value (parseRule rule).2 else first) := by
              simp [runRules, hreg, hv]
            have h2 : ruleMsgs reg value (rule :: rest) =
                validator value (parseRule rule).2 :: ruleMsgs reg value rest := by
              simp [ruleMsgs, hreg, hv]
            rw [h1, ih, h2]
            exact updFirst_cons first _ hv (ruleMsgs reg value rest)

theorem runRules_fst (reg : Registry) (fname value : String) :
    ∀ (rules : List String) (errs : ErrMap) (first : String) (k : String),
      errLookup (runRules reg fname value rules errs first).1 k =
        if fname = k then errLookup errs k ++ ruleMsgs reg value rules
        else errLookup errs k := by
  intro rules
  induction rules with
  | nil =>
      intro errs first k
      by_cases h : fname = k <;> simp [runRules, ruleMsgs, h]
  | cons rule rest ih =>
      intro errs first k
      cases hreg : reg (parseRule rule).1 with
      | none => simp [runRules, ruleMsgs, hreg, ih]
      | some validator =>
          by_cases hv : validator value (parseRule rule).2 = ""
          · simp [runRules, ruleMsgs, hreg, hv, ih]
          · have h1 : runRules reg fname value (rule :: rest) errs first =
                runRules reg fname value rest
                  (appendErr errs fname (validator value (parseRule rule).2))
                  (if first = "" then validator value (parseRule rule).2 else first) := by
              simp [runRules, hreg, hv]
            have h2 : ruleMsgs reg value (rule :: rest) =
                validator value (parseRule rule).2 :: ruleMsgs reg value rest := by
              simp [ruleMsgs, hreg, hv]
            rw [h1, ih, h2, errLookup_appendErr]
            by_cases hk : fname = k <;> simp [hk]

theorem runRules_fst_nil (reg : Registry) (fname value : String) :
    ∀ (rules : List String) (errs : ErrMap) (first : String),
      ((runRules reg fname value rules errs first).1 = [] ↔
        errs = [] ∧ ruleMsgs reg value rules = []) := by
  intro rules
  induction rules with
  | nil => intro errs first; simp [runRules, ruleMsgs]
  | cons rule rest ih =>
      intro errs first
      cases hreg : reg (parseRule rule).1 with
      | none => simp [runRules, ruleMsgs, hreg, ih]
      | some validator =>
          by_cases hv : validator value (parseRule rule).2 = ""
          · simp [runRules, ruleMsgs, hreg, hv, ih]
          · have h1 : runRules reg fname value (rule :: rest) errs first =
                runRules reg fname value rest
                  (appendErr errs fname (validator value (parseRule rule).2))
                  (if first = "" then validator value (parseRule rule).2 else first) := by
              simp [runRules, hreg, hv]
            rw [h1, ih]
            simp [ruleMsgs, hreg, hv, appendErr_ne_nil]

theorem runFields_snd (reg : Registry) :
    ∀ (fields : List GoField) (errs : ErrMap) (first : String),
      (runFields reg fields errs first).2 = updFirst first (allMsgs reg fields) := by
  intro fields
  induction fields with
  | nil => intro errs first; simp [runFields, allMsgs, updFirst_nil]
  | cons f rest ih =>
      intro errs first
      by_cases htag : f.purifyTag = ""
      · simp [runFields, allMsgs, fieldMsgs, htag, ih]
      · simp only [runFields, if_neg htag, allMsgs]
        rw [ih, runRules_snd]
        simp only [fieldMsgs, if_neg htag]
        exact updFirst_append first _ _
          (fun m hm => ruleMsgs_ne_empty reg f.value (splitRules f.purifyTag) m hm)

theorem runFields_fst (reg : Registry) (k : String) :
    ∀ (fields : List GoField) (errs : ErrMap) (first : String),
      errLookup (runFields reg fields errs first).1 k =
        errLookup errs k ++ specErrsFor reg k fields := by
  intro fields
  induction fields with
  | nil => intro errs first; simp [runFields, specErrsFor]
  | cons f rest ih =>
      intro errs first
      by_cases htag : f.purifyTag = ""
      · simp [runFields, specErrsFor, fieldMsgs, htag, ih]
      · simp only [runFields, if_neg htag, specErrsFor]
        rw [ih, runRules_fst]
        simp only [fieldMsgs, if_neg htag]
        by_cases hk : displayName f = k
        · simp [hk, List.append_assoc]
        · simp [hk]

theorem runFields_fst_nil (reg : Registry) :
    ∀ (fields : List GoField) (errs : ErrMap) (first : String),
      ((runFields reg fields errs first).1 = [] ↔
        errs = [] ∧ allMsgs reg fields = []) := by
  intro fields
  induction fields with
  | nil => intro errs first; simp [runFields, allMsgs]
  | cons f rest ih =>
      intro errs first
      by_cases htag : f.purifyTag = ""
      · simp [runFields, allMsgs, fieldMsgs, htag, ih]
      · simp only [runFields, if_neg htag, allMsgs]
        rw [ih, runRules_fst_nil]
        simp only [fieldMsgs, if_neg htag]
        simp [List.append_eq_nil, and_assoc]

theorem validateStruct_structV_some (reg : Registry) (fields : List GoField)
    (err : ValidateError)
    (h : ValidateStruct reg (GoValue.structV fields) = some err) :
    err.Errors = (runFields reg fields [] "").1 ∧
    err.Message = (runFields reg fields [] "").2 := by
  simp only [ValidateStruct, deref] at h
  by_cases hnil : (runFields reg fields [] "").1 = []
  · rw [if_pos hnil] at h; exact Option.noConfusion h
  · rw [if_neg hnil] at h
    have h' := Option.some.inj h
    subst h'
    exact ⟨rfl, rfl⟩

theorem runRules_congr (reg₁ reg₂ : Registry) (h : ∀ n, reg₁ n = reg₂ n)
    (fname value : String) :
    ∀ (rules : List String) (errs : ErrMap) (first : String),
      runRules reg₁ fname value rules errs first =
        runRules reg₂ fname value rules errs first := by
  intro rules
  induction rules with
  | nil => intro errs first; simp [runRules]
  | cons rule rest ih =>
      intro errs first
      simp only [runRules]
      rw [h (parseRule rule).1]
      cases reg₂ (parseRule rule).1 with
      | none => exact ih errs first
      | some validator =>
          by_cases hv : validator value (parseRule rule).2 = "" <;> simp [hv, ih]

theorem runFields_congr (reg₁ reg₂ : Registry) (h : ∀ n, reg₁ n = reg₂ n) :
    ∀ (fields : List GoField) (errs : ErrMap) (first : String),
      runFields reg₁ fields errs first = runFields reg₂ fields errs first := by
  intro fields
  induction fields with
  | nil => intro errs first; simp [runFields]
  | cons f rest ih =>
      intro errs first
      by_cases htag : f.purifyTag = ""
      · simp [runFields, htag, ih]
      · simp only [runFields, if_neg htag]
        rw [runRules_congr reg₁ reg₂ h, ih]

theorem validateStruct_congr (reg₁ reg₂ : Registry) (h : ∀ n, reg₁ n = reg₂ n)
    (s : GoValue) : ValidateStruct reg₁ s = ValidateStruct reg₂ s := by
  cases hd : deref s with
  | structV fields =>
      simp only [ValidateStruct, hd]
      rw [runFields_congr reg₁ reg₂ h fields [] ""]
  | ptr v => simp [ValidateStruct, hd]
  | prim => simp [ValidateStruct, hd]

theorem specErrsFor_mem (reg : Registry) (k : String) :
    ∀ (fields : List GoField), specErrsFor reg k fields ≠ [] →
      ∃ f, f ∈ fields ∧ displayName f = k := by
  intro fields
  induction fields with
  | nil => simp [specErrsFor]
  | cons f rest ih =>
      intro hne
      by_cases hk : displayName f = k
      · exact ⟨f, by simp, hk⟩
      · have hrest : specErrsFor reg k rest ≠ [] := by
          simpa [specErrsFor, hk] using hne
        obtain ⟨g, hg, hgk⟩ := ih hrest
        exact ⟨g, by simp [hg], hgk⟩

/-! Lemmas locating the first occurrence of a character, used to
characterize `parseRule` independently of `strIndex`. -/

theorem strIndex_not_mem (c : Char) :
    ∀ (cs : List Char), c ∉ cs → strIndex c cs = none := by
  intro cs
  induction cs with
  | nil => intro; rfl
  | cons x xs ih =>
      intro hmem
      have hx : ¬ x = c := fun hh => hmem (by simp [hh])
      have hxs : c ∉ xs := fun hh => hmem (by simp [hh])
      simp [strIndex, hx, ih hxs]

theorem strIndex_append_cons (c : Char) :
    ∀ (pre post : List Char), c ∉ pre →
      strIndex c (pre ++ c :: post) = some pre.length := by
  intro pre
  induction pre with
  | nil => intro post _; simp [strIndex]
  | cons x xs ih =>
      intro post hmem
      have hx : ¬ x = c := fun hh => hmem (by simp [hh])
      have hxs : c ∉ xs := fun hh => hmem (by simp [hh])
      simp [strIndex, hx, ih post hxs]

theorem take_length_append (pre : List Char) :
    ∀ (post : List Char), (pre ++ post).take pre.length = pre := by
  induction pre with
  | nil => intro post; simp
  | cons x xs ih => intro post; simp [ih]

theorem drop_length_succ_append (pre : List Char) (c : Char) :
    ∀ (post : List Char), (pre ++ c :: post).drop (pre.length + 1) = post := by
  induction pre with
  | nil => intro post; simp
  | cons x xs ih => intro post; simp [ih post]

/-! The claims. -/

/-- C1: for every struct record and registry state, every non-empty message a
registered validator returns is appended to its field's list in `Errors` in
rule-evaluation order (fields in declaration order, rules left to right), and
the report's `Message` is the first non-empty validator message in
field-then-rule order. -/
theorem C1_accumulation_order (reg : Registry) (fields : List GoField)
    (err : ValidateError)
    (h : ValidateStruct reg (GoValue.structV fields) = some err) :
    (∀ k, errLookup err.Errors k = specErrsFor reg k fields) ∧
    err.Message = (allMsgs reg fields).headD "" := by
  obtain ⟨he, hm⟩ := validateStruct_structV_some reg fields err h
  constructor
  · intro k
    rw [he, runFields_fst]
    simp [errLookup]
  · rw [hm, runFields_snd]
    simp [updFirst]

/-- Witness for C1: the concrete record `wFields` under the built-in registry
produces exactly the report `wErr`, whose per-key lists and message match the
specification-level description. -/
theorem C1_accumulation_order_witness :
    errLookup wErr.Errors "name" = specErrsFor regBuiltins "name" wFields ∧
    wErr.Message = (allMsgs regBuiltins wFields).headD "" :=
  ⟨(C1_accumulation_order regBuiltins wFields wErr (by decide)).1 "name",
   (C1_accumulation_order regBuiltins wFields wErr (by decide)).2⟩

/-- C2: `parseRule` returns the whole segment with empty parameter when the
segment has no `(`; otherwise the part before the first `(` is the name and
the part after it, with all trailing `)` stripped, is the parameter; and
`"min(3)|max(20)"` parses to exactly `("min","3")` then `("max","20")`. -/
theorem C2_parse_rule (cs pre post : List Char) :
    ('(' ∉ cs → parseRule (String.mk cs) = (String.mk cs, "")) ∧
    ('(' ∉ pre →
      parseRule (String.mk (pre ++ '(' :: post)) =
        (String.mk pre, String.mk ((post.reverse.dropWhile (· == ')')).reverse))) ∧
    (splitRules "min(3)|max(20)").map parseRule = [("min", "3"), ("max", "20")] := by
  refine ⟨?_, ?_, by decide⟩
  · intro hcs
    have ht : (String.mk cs).toList = cs := rfl
    simp only [parseRule, ht, strIndex_not_mem '(' cs hcs]
  · intro hpre
    have ht : (String.mk (pre ++ '(' :: post)).toList = pre ++ '(' :: post := rfl
    simp only [parseRule, ht, strIndex_append_cons '(' pre post hpre]
    rw [take_length_append pre ('(' :: post), drop_length_succ_append pre '(' post]
    rfl

/-- Witness for C2 at concrete segments: `abc` has no paren, `min(3)` splits
into name `min` and parameter `3`. -/
theorem C2_parse_rule_witness :
    parseRule (String.mk ['a', 'b', 'c']) = (String.mk ['a', 'b', 'c'], "") ∧
    parseRule (String.mk (['m', 'i', 'n'] ++ '(' :: ['3', ')'])) =
      (String.mk ['m', 'i', 'n'],
       String.mk ((['3', ')'].reverse.dropWhile (· == ')')).reverse)) :=
  ⟨(C2_parse_rule ['a', 'b', 'c'] ['m', 'i', 'n'] ['3', ')']).1 (by decide),
   (C2_parse_rule ['a', 'b', 'c'] ['m', 'i', 'n'] ['3', ')']).2.1 (by decide)⟩

/-- C3: every input that is not struct-shaped after the optional single
pointer dereference yields (without panicking — the function is total) the
synthetic report mapping the empty-string key to `["expected a struct"]`
with message `"expected a struct"`. -/
theorem C3_non_struct_report (reg : Registry) (v : GoValue)
    (h : ∀ fs, deref v ≠ GoValue.structV fs) :
    ValidateStruct reg v =
      some ⟨[("", ["expected a struct"])], "expected a struct"⟩ := by
  cases hd : deref v with
  | structV fs => exact absurd hd (h fs)
  | ptr w => simp [ValidateStruct, hd]
  | prim => simp [ValidateStruct, hd]

/-- Witness for C3: a primitive (non-struct, non-pointer) value. -/
theorem C3_non_struct_report_witness :
    ValidateStruct emptyRegistry GoValue.prim =
      some ⟨[("", ["expected a struct"])], "expected a struct"⟩ :=
  C3_non_struct_report emptyRegistry GoValue.prim
    (fun _ h => GoValue.noConfusion h)

/-- C4: a struct whose every field has an empty `purify` tag validates to
`none` under every registry — no validator is ever consulted, each such
field is skipped entirely. -/
theorem C4_empty_tags_none (reg : Registry) (fields : List GoField)
    (h : ∀ f ∈ fields, f.purifyTag = "") :
    ValidateStruct reg (GoValue.structV fields) = none := by
  have key : ∀ (fs : List GoField), (∀ f ∈ fs, f.purifyTag = "") →
      runFields reg fs [] "" = ([], "") := by
    intro fs
    induction fs with
    | nil => intro; simp [runFields]
    | cons f rest ih =>
        intro hfs
        have hf : f.purifyTag = "" := hfs f (by simp)
        have hrest := ih (fun g hg => hfs g (by simp [hg]))
        simp [runFields, hf, hrest]
  simp [ValidateStruct, deref, key fields h]

/-- Witness for C4: one field with an empty tag, under the built-in registry. -/
theorem C4_empty_tags_none_witness :
    ValidateStruct regBuiltins (GoValue.structV [⟨"Age", "age", "", "25"⟩]) = none :=
  C4_empty_tags_none regBuiltins [⟨"Age", "age", "", "25"⟩] (by decide)

/-- C5: a rule whose parsed name is not registered is skipped silently by the
dispatch loop: the loop's entire state (accumulated errors and first
message) is exactly as if the rule were absent, so it can never produce an
`Errors` entry, affect `Message`, or fail. -/
theorem C5_unknown_rule_skipped (reg : Registry) (rule : String)
    (h : reg (parseRule rule).1 = none) (fieldName value : String)
    (rules : List String) (errs : ErrMap) (first : String) :
    runRules reg fieldName value (rule :: rules) errs first =
      runRules reg fieldName value rules errs first := by
  simp [runRules, h]

/-- Witness for C5: the name `unknown` is not in the built-in registry. -/
theorem C5_unknown_rule_skipped_witness :
    runRules regBuiltins "name" "Al" ["unknown"] [] "" =
      runRules regBuiltins "name" "Al" [] [] "" :=
  C5_unknown_rule_skipped regBuiltins "unknown" rfl "name" "Al" [] [] ""

/-- C6: registering twice under one name silently overwrites (last write
wins): the resulting registry is pointwise the one holding only the second
function, and every subsequent `ValidateStruct` call behaves identically to
it, so rule `n` dispatches only to `g`. -/
theorem C6_register_last_write_wins (reg : Registry) (n : String)
    (f g : ValidatorFunc) :
    (∀ m, RegisterValidator (RegisterValidator reg n f) n g m =
        RegisterValidator reg n g m) ∧
    (∀ s, ValidateStruct (RegisterValidator (RegisterValidator reg n f) n g) s =
        ValidateStruct (RegisterValidator reg n g) s) := by
  have hpt : ∀ m, RegisterValidator (RegisterValidator reg n f) n g m =
      RegisterValidator reg n g m := by
    intro m
    by_cases hm : m = n <;> simp [RegisterValidator, hm]
  exact ⟨hpt, fun s => validateStruct_congr _ _ hpt s⟩

/-- C7: when the parameter does not parse as an integer, the discarded
`strconv.Atoi` error leaves the bound at zero: `Min` then accepts every
value (length is never below zero), and `Max` rejects every value of
non-zero length with its usual message. -/
theorem C7_unparsable_param_zero (value param : String)
    (h : goAtoiParse param = none) :
    Min value param = "" ∧
    (0 < goLen value →
      Max value param = "max length is " ++ param ∧ Max value param ≠ "") := by
  have hz : goAtoi param = 0 := by simp [goAtoi, h]
  have hmin : Min value param = "" := by
    have hge : ¬ ((goLen value : Int) < 0) := by omega
    simp [Min, hz, hge]
  refine ⟨hmin, fun hlen => ?_⟩
  have hgt : (goLen value : Int) > 0 := by omega
  have hmax : Max value param = "max length is " ++ param := by
    simp [Max, hz, hgt]
  refine ⟨hmax, ?_⟩
  rw [hmax]
  intro hc
  have hlenc := congrArg String.length hc
  rw [String.length_append] at hlenc
  have h14 : ("max length is ").length = 14 := by decide
  have h0 : ("" : String).length = 0 := by decide
  omega

/-- Witness for C7: parameter `abc` does not parse; value `x` has length 1. -/
theorem C7_unparsable_param_zero_witness :
    Min "x" "abc" = "" ∧
    (Max "x" "abc" = "max length is " ++ "abc" ∧ Max "x" "abc" ≠ "") :=
  ⟨(C7_unparsable_param_zero "x" "abc" (by decide)).1,
   (C7_unparsable_param_zero "x" "abc" (by decide)).2 (by decide)⟩

/-- C8: every key that carries messages in a struct report is the display
name of one of the record's fields, and that display name is the json tag
when it is non-empty and not `-`, otherwise the declared field name. -/
theorem C8_error_keys (reg : Registry) (fields : List GoField)
    (err : ValidateError)
    (h : ValidateStruct reg (GoValue.structV fields) = some err)
    (k : String) (hk : errLookup err.Errors k ≠ []) :
    ∃ f, f ∈ fields ∧ k = displayName f ∧
      (¬ (f.jsonTag = "" ∨ f.jsonTag = "-") → displayName f = f.jsonTag) ∧
      ((f.jsonTag = "" ∨ f.jsonTag = "-") → displayName f = f.name) := by
  obtain ⟨he, _⟩ := validateStruct_structV_some reg fields err h
  rw [he, runFields_fst] at hk
  simp only [errLookup, List.nil_append] at hk
  obtain ⟨f, hf, hfk⟩ := specErrsFor_mem reg k fields hk
  refine ⟨f, hf, hfk.symm, ?_, ?_⟩
  · intro hj; simp [displayName, hj]
  · intro hj; simp [displayName, hj]

/-- Witness for C8: on the concrete report `wErr` the key `name` comes from
the single field of `wFields`, via its json tag. -/
theorem C8_error_keys_witness :
    ∃ f, f ∈ wFields ∧ "name" = displayName f ∧
      (¬ (f.jsonTag = "" ∨ f.jsonTag = "-") → displayName f = f.jsonTag) ∧
      ((f.jsonTag = "" ∨ f.jsonTag = "-") → displayName f = f.name) :=
  C8_error_keys regBuiltins wFields wErr (by decide) "name" (by decide)

/-- C9: validation is deterministic: for a fixed record and a fixed registry
state (pointwise-equal lookup tables, with validators being pure functions),
repeated calls return identical results — same `Errors`, same `Message`, or
`none` in both runs. -/
theorem C9_deterministic (reg₁ reg₂ : Registry) (s : GoValue)
    (h : ∀ n, reg₁ n = reg₂ n) :
    ValidateStruct reg₁ s = ValidateStruct reg₁ s ∧
    ValidateStruct reg₁ s = ValidateStruct reg₂ s :=
  ⟨rfl, validateStruct_congr reg₁ reg₂ h s⟩

/-- Witness for C9 at the concrete record `wFields` and built-in registry. -/
theorem C9_deterministic_witness :
    ValidateStruct regBuiltins (GoValue.structV wFields) =
      ValidateStruct regBuiltins (GoValue.structV wFields) ∧
    ValidateStruct regBuiltins (GoValue.structV wFields) =
      ValidateStruct regBuiltins (GoValue.structV wFields) :=
  C9_deterministic regBuiltins regBuiltins (GoValue.structV wFields) (fun _ => rfl)

/-- C10: a pointer to a struct is dereferenced and validates exactly as the
struct itself — it is accepted as record-shaped, never rejected with
`expected a struct`. -/
theorem C10_pointer_deref (reg : Registry) (fields : List GoField) :
    ValidateStruct reg (GoValue.ptr (GoValue.structV fields)) =
      ValidateStruct reg (GoValue.structV fields) := rfl

end Purify
